import Mathlib

/-!
Formal model of the SQL dependency-graph builder in
`src/examples/snowflake_dag.rs`, together with the graph algorithms that its
design document specifies for the accumulated dependency graph.

The Rust structures `TableNode`, `ColumnNode` and `QueryDAG` are embedded as
Lean structures; the registry maps (`HashMap`) become association lists whose
`insertA` has the same lookup semantics (a later insertion with the same key
overwrites the earlier entry).  The parsed SQL AST consumed by the builder is
embedded as inductive types, and the builder's mutually recursive traversal
(`build_from_query`, `extract_from_select`, `extract_table`, `walk_expr`) is
embedded as mutually structurally recursive functions.
-/

set_option maxHeartbeats 1000000

namespace SnowflakeDag

/-- Provenance tag of a table-like entity (source `enum NodeType`). -/
inductive NodeType where
  | BaseTable
  | CTE
  | Subquery
deriving DecidableEq

/-- One table-like entity (source `struct TableNode`). -/
structure TableNode where
  name : String
  «alias» : Option String
  node_type : NodeType
deriving DecidableEq

/-- One projected output column (source `struct ColumnNode`). -/
structure ColumnNode where
  name : String
  source_table : Option String
  expression : String
  dependencies : List String
deriving DecidableEq

/-- The accumulated graph (source `struct QueryDAG`).  The two `HashMap`
fields are embedded as association lists with unique keys. -/
structure QueryDAG where
  tables : List (String × TableNode)
  columns : List ColumnNode
  dependencies : List (String × List String)
deriving DecidableEq

/-- `HashMap::insert`: overwrite the entry with key `k` in place, or append a
new entry at the end. -/
def insertA {α : Type} (k : String) (v : α) : List (String × α) → List (String × α)
  | [] => [(k, v)]
  | (k', v') :: t => if k' = k then (k, v) :: t else (k', v') :: insertA k v t

/-- `HashMap::get`: the value stored at key `k`. -/
def lookupA {α : Type} (k : String) : List (String × α) → Option α
  | [] => none
  | (k', v') :: t => if k' = k then some v' else lookupA k t

/-- `HashMap::entry(key).or_insert_with(HashSet::new)`: make sure key `k` is
present, mapping it to the empty set when it was absent. -/
def entryOrEmpty (k : String) (m : List (String × List String)) : List (String × List String) :=
  match lookupA k m with
  | some _ => m
  | none => insertA k [] m

/-- `QueryDAG::new()`. -/
def QueryDAG.new : QueryDAG := ⟨[], [], []⟩

/-- The registry keys of the table map. -/
def tableKeys (g : QueryDAG) : List String := g.tables.map Prod.fst

mutual
/-- Modelled from the spec: the expression tree consumed by the walker
(`sqlparser::ast::Expr` is not part of `src/`).  The shapes are the ones the
spec enumerates: simple identifier, compound identifier, binary operation,
function call, nested expression, and the "other" family (unary operation,
cast, case expression, literal value, anything else). -/
inductive Expr where
  | identifier (value : String)
  | compoundIdentifier (idents : List String)
  | binaryOp (left : Expr) (op : String) (right : Expr)
  | function (f : Function)
  | nested (e : Expr)
  | unaryOp (op : String) (e : Expr)
  | cast (e : Expr)
  | caseExpr (conditions : List Expr) (results : List Expr)
  | value (v : String)
  | other
/-- Modelled from the spec: a function-call expression
(`sqlparser::ast::Function` is not part of `src/`): a name, an argument
clause, and an optional OVER window clause. -/
inductive Function where
  | mk (name : String) (args : FunctionArguments) (over : Option WindowSpec)
/-- Modelled from the spec: the argument clause of a function call
(`sqlparser::ast::FunctionArguments` is not part of `src/`): absent
parentheses, a subquery, or an ordered argument list. -/
inductive FunctionArguments where
  | none
  | subquery
  | list (l : FunctionArgumentList)
/-- Modelled from the spec: an ordered argument list together with its
trailing clauses (`sqlparser::ast::FunctionArgumentList` is not part of
`src/`). -/
inductive FunctionArgumentList where
  | mk (args : List FunctionArg) (clauses : List String)
/-- Modelled from the spec: one function argument, positional or named
(`sqlparser::ast::FunctionArg` is not part of `src/`). -/
inductive FunctionArg where
  | unnamed (a : FunctionArgExpr)
  | named (name : String) (a : FunctionArgExpr)
/-- Modelled from the spec: the payload of a function argument
(`sqlparser::ast::FunctionArgExpr` is not part of `src/`): an expression, a
qualified wildcard, or a bare wildcard. -/
inductive FunctionArgExpr where
  | expr (e : Expr)
  | qualifiedWildcard (q : String)
  | wildcard
/-- Modelled from the spec: an OVER window clause
(`sqlparser::ast::WindowSpec` is not part of `src/`): PARTITION BY and
ORDER BY expression lists. -/
inductive WindowSpec where
  | mk (partitionBy : List Expr) (orderBy : List Expr)
end

mutual
/-- `QueryDAG::walk_expr`: push every identifier the expression reads onto
`deps`, in traversal order.  The `deps` parameter plays the role of the
`&mut Vec<String>` accumulator. -/
def walkExpr : Expr → List String → List String
  | .identifier ident, deps => deps ++ [ident]
  | .compoundIdentifier idents, deps => deps ++ [String.intercalate "." idents]
  | .binaryOp left _ right, deps => walkExpr right (walkExpr left deps)
  | .function (.mk _ args _), deps =>
    match args with
    | .list argList => walkArgList argList deps
    | _ => deps
  | .nested e, deps => walkExpr e deps
  | _, deps => deps
termination_by structural e => e
/-- The `FunctionArguments::List` branch of `walk_expr`. -/
def walkArgList : FunctionArgumentList → List String → List String
  | .mk args _, deps => walkArgs args deps
termination_by structural l => l
/-- The `for arg in &arg_list.args` loop of `walk_expr`: only
`FunctionArg::Unnamed(FunctionArgExpr::Expr(_))` arguments are walked. -/
def walkArgs : List FunctionArg → List String → List String
  | [], deps => deps
  | .unnamed (.expr e) :: rest, deps => walkArgs rest (walkExpr e deps)
  | _ :: rest, deps => walkArgs rest deps
termination_by structural l => l
end

/-- `QueryDAG::extract_column_deps`: run the walker on a fresh accumulator. -/
def extractColumnDeps (e : Expr) : List String := walkExpr e []

mutual
/-- Modelled from the spec: the rendered textual form of an expression
(`format!("{}", expr)`; the `Display` implementations are not part of
`src/`).  The spec marks this text as human-diagnostic only, so the renderer
is deliberately plain. -/
def render : Expr → String
  | .identifier v => v
  | .compoundIdentifier ids => String.intercalate "." ids
  | .binaryOp l op r => render l ++ " " ++ op ++ " " ++ render r
  | .function (.mk n args _) => n ++ "(" ++ renderArguments args ++ ")"
  | .nested e => "(" ++ render e ++ ")"
  | .unaryOp op e => op ++ render e
  | .cast e => "CAST(" ++ render e ++ ")"
  | .caseExpr _ _ => "CASE"
  | .value v => v
  | .other => ""
termination_by structural e => e
/-- Modelled from the spec: rendering of an argument clause. -/
def renderArguments : FunctionArguments → String
  | .none => ""
  | .subquery => "(subquery)"
  | .list (.mk args _) => renderArgs args
termination_by structural a => a
/-- Modelled from the spec: rendering of an argument list. -/
def renderArgs : List FunctionArg → String
  | [] => ""
  | [a] => renderArg a
  | a :: rest => renderArg a ++ ", " ++ renderArgs rest
termination_by structural l => l
/-- Modelled from the spec: rendering of one argument. -/
def renderArg : FunctionArg → String
  | .unnamed ae => renderArgExpr ae
  | .named n ae => n ++ " => " ++ renderArgExpr ae
termination_by structural a => a
/-- Modelled from the spec: rendering of an argument payload. -/
def renderArgExpr : FunctionArgExpr → String
  | .expr e => render e
  | .qualifiedWildcard q => q ++ ".*"
  | .wildcard => "*"
termination_by structural a => a
end

/-- Modelled from the spec: one projection item
(`sqlparser::ast::SelectItem` is not part of `src/`).  The spec enumerates
the shapes the lineage builder operates over: unnamed expression projections,
aliased expression projections, wildcard projections (`*`, or `t.*` with a
qualifier), and anything else. -/
inductive SelectItem where
  | unnamedExpr (e : Expr)
  | exprWithAlias (e : Expr) («alias» : String)
  | wildcard (qualifier : Option String)
  | otherItem

mutual
/-- Modelled from the spec: a query (`sqlparser::ast::Query` is not part of
`src/`): an optional WITH clause and a set-expression body. -/
inductive Query where
  | mk (withClause : Option With) (body : SetExpr)
/-- Modelled from the spec: a WITH clause holding the ordered CTE list
(`sqlparser::ast::With` is not part of `src/`). -/
inductive With where
  | mk (cte_tables : List Cte)
/-- Modelled from the spec: one CTE declaration: its declared name and its
query (`sqlparser::ast::Cte` is not part of `src/`). -/
inductive Cte where
  | mk (name : String) (query : Query)
/-- Modelled from the spec: a set-expression: only the plain-select shape is
handled by the builder (`sqlparser::ast::SetExpr` is not part of `src/`). -/
inductive SetExpr where
  | select (s : Select)
  | setOp
/-- Modelled from the spec: a SELECT block: its projection list and its
FROM clause list (`sqlparser::ast::Select` is not part of `src/`). -/
inductive Select where
  | mk (projection : List SelectItem) (fromClause : List TableWithJoins)
/-- Modelled from the spec: one FROM-clause element: a relation and its
joins (`sqlparser::ast::TableWithJoins` is not part of `src/`). -/
inductive TableWithJoins where
  | mk (relation : TableFactor) (joins : List Join)
/-- Modelled from the spec: one JOIN target (`sqlparser::ast::Join` is not
part of `src/`). -/
inductive Join where
  | mk (relation : TableFactor)
/-- Modelled from the spec: a table factor
(`sqlparser::ast::TableFactor` is not part of `src/`): a direct table
reference, a derived subquery, or anything else. -/
inductive TableFactor where
  | table (name : String) («alias» : Option String)
  | derived (subquery : Query) («alias» : Option String)
  | otherFactor
end

/-- The projection loop of `QueryDAG::extract_from_select`: one `ColumnNode`
per unnamed, aliased or wildcard projection item, pushed in textual order. -/
def processProjection (dag : QueryDAG) (context : String) : List SelectItem → QueryDAG
  | [] => dag
  | item :: rest =>
    let dag1 := match item with
      | .unnamedExpr e =>
        { dag with columns :=
            dag.columns ++ [⟨render e, some context, render e, extractColumnDeps e⟩] }
      | .exprWithAlias e a =>
        { dag with columns :=
            dag.columns ++ [⟨a, some context, render e, extractColumnDeps e⟩] }
      | .wildcard _ =>
        { dag with columns := dag.columns ++ [⟨"*", some context, "*", []⟩] }
      | .otherItem => dag
    processProjection dag1 context rest

mutual
/-- `QueryDAG::extract_from_select`: first the FROM/JOIN list, then the
projection list. -/
def extractFromSelect (dag : QueryDAG) (context : String) : Select → QueryDAG
  | .mk projection fromClause =>
    let dag1 := extractTWJs dag fromClause
    processProjection dag1 context projection
termination_by structural s => s
/-- The `for table_with_joins in &select.from` loop of
`extract_from_select`. -/
def extractTWJs (dag : QueryDAG) : List TableWithJoins → QueryDAG
  | [] => dag
  | .mk relation joins :: rest =>
    let dag1 := extractTable dag relation
    let dag2 := extractJoins dag1 joins
    extractTWJs dag2 rest
termination_by structural l => l
/-- The `for join in &table_with_joins.joins` loop of
`extract_from_select`. -/
def extractJoins (dag : QueryDAG) : List Join → QueryDAG
  | [] => dag
  | .mk relation :: rest =>
    let dag1 := extractTable dag relation
    extractJoins dag1 rest
termination_by structural l => l
/-- `QueryDAG::extract_table`: register a direct table under alias-or-name,
or register an aliased derived subquery and recurse into its plain-select
body; every other factor is skipped. -/
def extractTable (dag : QueryDAG) : TableFactor → QueryDAG
  | .table name al =>
    let key := al.getD name
    let dag1 := { dag with tables := insertA key ⟨name, al, .BaseTable⟩ dag.tables }
    { dag1 with dependencies := entryOrEmpty key dag1.dependencies }
  | .derived subquery al =>
    match al with
    | some a =>
      let dag1 := { dag with tables := insertA a ⟨"(subquery)", some a, .Subquery⟩ dag.tables }
      match subquery with
      | .mk _ (.select s) => extractFromSelect dag1 a s
      | .mk _ .setOp => dag1
    | none => dag
  | .otherFactor => dag
termination_by structural f => f
end

/-- The `for cte in &with.cte_tables` loop of `QueryDAG::build_from_query`:
register the CTE entity under its declared name, then (when its body is a
plain select) extract from it with the CTE name as context. -/
def buildCtes (dag : QueryDAG) : List Cte → QueryDAG
  | [] => dag
  | .mk name q :: rest =>
    let dag1 := { dag with tables := insertA name ⟨name, none, .CTE⟩ dag.tables }
    let dag2 := match q with
      | .mk _ (.select s) => extractFromSelect dag1 name s
      | .mk _ .setOp => dag1
    buildCtes dag2 rest

/-- `QueryDAG::build_from_query`: the CTEs in declaration order, then the
final body with the sentinel `"__result__"` as context. -/
def buildFromQuery (dag : QueryDAG) : Query → QueryDAG
  | .mk w body =>
    let dag1 := match w with
      | some (.mk ctes) => buildCtes dag ctes
      | none => dag
    match body with
    | .select s => extractFromSelect dag1 "__result__" s
    | .setOp => dag1

/-- `build`: analyze one query starting from a fresh graph
(`QueryDAG::new()` followed by `build_from_query`, as in `main`). -/
def build (q : Query) : QueryDAG := buildFromQuery QueryDAG.new q

mutual
/-- The walker's documented result, written as a pure function following the
spec's words: the concatenation, in first-seen order and without
deduplication, of the identifiers and compound identifiers encountered
across the simple-identifier, compound-identifier, binary-operation,
function-call and nested shapes; a compound identifier is one dotted string;
every other shape contributes nothing. -/
def specWalk : Expr → List String
  | .identifier v => [v]
  | .compoundIdentifier ids => [String.intercalate "." ids]
  | .binaryOp l _ r => specWalk l ++ specWalk r
  | .function (.mk _ args _) =>
    match args with
    | .list (.mk fargs _) => specWalkArgs fargs
    | _ => []
  | .nested e => specWalk e
  | _ => []
termination_by structural e => e
/-- The dependencies contributed by an argument list: those of its unnamed
positional expression arguments, in order. -/
def specWalkArgs : List FunctionArg → List String
  | [] => []
  | .unnamed (.expr e) :: rest => specWalk e ++ specWalkArgs rest
  | _ :: rest => specWalkArgs rest
termination_by structural l => l
end

/-- The lineage records the projection loop appends for a projection list,
written as a pure function following the spec's words (one record per
unnamed, aliased or wildcard item, in textual order). -/
def projectionColumns (context : String) : List SelectItem → List ColumnNode
  | [] => []
  | .unnamedExpr e :: rest =>
    ⟨render e, some context, render e, extractColumnDeps e⟩ :: projectionColumns context rest
  | .exprWithAlias e a :: rest =>
    ⟨a, some context, render e, extractColumnDeps e⟩ :: projectionColumns context rest
  | .wildcard _ :: rest =>
    ⟨"*", some context, "*", []⟩ :: projectionColumns context rest
  | .otherItem :: rest => projectionColumns context rest

/-- The registry key of a discovered table, following the spec's words:
the exposed alias when present, else the canonical name. -/
def keyOf (canonical : String) (al : Option String) : String :=
  match al with
  | some a => a
  | none => canonical

/-- Modelled from the spec: the directed edge list of the accumulated graph
(§3/§4.5; never populated by the example's construction code).  An entry
`(c, ps)` of `dependencies` records `ps` as the direct producers of `c`,
giving one edge `(p, c)` per `p ∈ ps`. -/
def depEdges : List (String × List String) → List (String × String)
  | [] => []
  | (c, ps) :: rest => ps.map (fun p => (p, c)) ++ depEdges rest

/-- The edges of a graph, read off its `dependencies` map. -/
def edgesOf (g : QueryDAG) : List (String × String) := depEdges g.dependencies

mutual
/-- Every registry key the builder can create for this query: CTE names,
direct-table keys, and derived-subquery aliases, gathered in traversal
order.  Used to characterize which keys construction may touch. -/
def declaredQuery : Query → List String
  | .mk w body =>
    (match w with
     | some (.mk ctes) => declaredCtes ctes
     | none => []) ++
    (match body with
     | .select s => declaredSelect s
     | .setOp => [])
/-- Keys contributed by a CTE list. -/
def declaredCtes : List Cte → List String
  | [] => []
  | .mk name q :: rest =>
    name ::
      ((match q with
        | .mk _ (.select s) => declaredSelect s
        | .mk _ .setOp => []) ++ declaredCtes rest)
termination_by structural l => l
/-- Keys contributed by a SELECT block (its FROM/JOIN list). -/
def declaredSelect : Select → List String
  | .mk _ fromClause => declaredTWJs fromClause
termination_by structural s => s
/-- Keys contributed by a FROM-clause list. -/
def declaredTWJs : List TableWithJoins → List String
  | [] => []
  | .mk relation joins :: rest =>
    declaredFactor relation ++ declaredJoins joins ++ declaredTWJs rest
termination_by structural l => l
/-- Keys contributed by a join list. -/
def declaredJoins : List Join → List String
  | [] => []
  | .mk relation :: rest => declaredFactor relation ++ declaredJoins rest
termination_by structural l => l
/-- Keys contributed by one table factor. -/
def declaredFactor : TableFactor → List String
  | .table name al => [al.getD name]
  | .derived subquery al =>
    (match al with
     | some a =>
       a :: (match subquery with
             | .mk _ (.select s) => declaredSelect s
             | .mk _ .setOp => [])
     | none => [])
  | .otherFactor => []
termination_by structural f => f
end

/-- Modelled from the spec: the failure condition of the graph algorithms
(§4.5/§7; absent from `src/`, whose `QueryDAG::print` only records the
topological sort and cycle detection as TODO items).  `topologicalOrder` is
the only operation that can fail, and it reports the keys involved in the
cycle. -/
inductive TopoError where
  | cycleDetected (keys : List String)
deriving DecidableEq

/-- Lexicographic comparison of character lists by Unicode scalar value. -/
def charLe : List Char → List Char → Bool
  | [], _ => true
  | _ :: _, [] => false
  | a :: as, b :: bs =>
    if a.toNat < b.toNat then true
    else if b.toNat < a.toNat then false
    else charLe as bs

/-- Modelled from the spec: lexicographic string order for the §4.5
tie-break rule, written over the character data so that it evaluates. -/
def strLe (a b : String) : Bool := charLe a.data b.data

/-- Insertion into a lexicographically sorted key list. -/
def insertSorted (a : String) : List String → List String
  | [] => [a]
  | b :: t => if strLe a b then a :: b :: t else b :: insertSorted a t

/-- Insertion sort on keys, giving the spec's deterministic lexicographic
processing order. -/
def sortKeys (l : List String) : List String := l.foldr insertSorted []

/-- Modelled from the spec: the node sequence the graph algorithms process —
the distinct table keys, in lexicographic order (§4.5 tie-break rule). -/
def topoNodes (g : QueryDAG) : List String := sortKeys (tableKeys g).dedup

/-- One graph step inside the node set `ns`: an edge of `E` both of whose
endpoints are listed in `ns`. -/
def stepIn (ns : List String) (E : List (String × String)) (a b : String) : Bool :=
  decide (a ∈ ns) && decide (b ∈ ns) && decide ((a, b) ∈ E)

/-- A nonempty path of length at most `n` from `a` to `b` along steps inside
`ns`. -/
def pathIn (ns : List String) (E : List (String × String)) : Nat → String → String → Bool
  | 0, _, _ => false
  | n + 1, a, b => stepIn ns E a b || ns.any (fun m => stepIn ns E a m && pathIn ns E n m b)

/-- Some listed node lies on a cycle inside `ns` (paths of length up to
`ns.length` suffice, since a minimal cycle repeats no node). -/
def hasCycleIn (ns : List String) (E : List (String × String)) : Bool :=
  ns.any (fun k => pathIn ns E ns.length k k)

/-- A walk `a → m₁ → … → mₖ → b` along steps inside `ns`, listing the
intermediate nodes. -/
def chainW (ns : List String) (E : List (String × String)) : String → List String → String → Prop
  | a, [], b => stepIn ns E a b = true
  | a, m :: l, b => stepIn ns E a m = true ∧ chainW ns E m l b

/-- Node `c` still has a pending producer among the remaining nodes. -/
def blocked (E : List (String × String)) (rem : List String) (c : String) : Bool :=
  E.any (fun e => decide (e.2 = c) && decide (e.1 ∈ rem))

/-- The first (lexicographically least, since `rem` is kept sorted)
remaining node with no pending producer. -/
def pick (E : List (String × String)) (rem : List String) : Option String :=
  rem.find? (fun c => !blocked E rem c)

/-- Kahn's algorithm: repeatedly emit an unblocked node and drop it from the
remaining set; return the emitted order and the never-emitted leftover.
The fuel argument (always instantiated with `rem.length`, which one removal
per step never exhausts) keeps the recursion structural. -/
def kahnAux (E : List (String × String)) : Nat → List String → List String × List String
  | 0, rem => ([], rem)
  | fuel + 1, rem =>
    match pick E rem with
    | none => ([], rem)
    | some c => (c :: (kahnAux E fuel (rem.erase c)).1, (kahnAux E fuel (rem.erase c)).2)

/-- Modelled from the spec: `topologicalOrder(graph)` (§4.5; absent from
`src/`, where it is only a TODO item of `QueryDAG::print`).  Kahn-style
order over the distinct table keys with lexicographic tie-break; when no
valid order exists it fails with `CycleDetected`, carrying every key that
lies on a cycle. -/
def topologicalOrder (g : QueryDAG) : Except TopoError (List String) :=
  let ns := topoNodes g
  let E := edgesOf g
  let r := kahnAux E ns.length ns
  if r.2.isEmpty then .ok r.1
  else .error (.cycleDetected (ns.filter (fun k => pathIn ns E ns.length k k)))

/-- Modelled from the spec: a valid topological order of the accumulated
graph — an ordering of exactly the distinct table keys in which every
edge's producer is positioned before its consumer. -/
def isValidOrder (g : QueryDAG) (ord : List String) : Prop :=
  ord.Perm (tableKeys g).dedup ∧
  ∀ p c, (p, c) ∈ edgesOf g → p ∈ ord → c ∈ ord → ord.indexOf p < ord.indexOf c

/-- The spec's §8 example input:
`WITH s AS (SELECT c.id FROM customers c) SELECT s.id FROM s`. -/
def exampleQuery : Query :=
  .mk (some (.mk [.mk "s"
        (.mk none (.select (.mk [.unnamedExpr (.compoundIdentifier ["c", "id"])]
          [.mk (.table "customers" (some "c")) []])))]))
    (.select (.mk [.unnamedExpr (.compoundIdentifier ["s", "id"])]
      [.mk (.table "s" none) []]))

/-- The spec's §8 wildcard example input: `SELECT * FROM t`. -/
def starQuery : Query :=
  .mk none (.select (.mk [.wildcard none] [.mk (.table "t" none) []]))

/-- A small two-table input: `SELECT a.x FROM t1 a JOIN t2 b`. -/
def joinQuery : Query :=
  .mk none (.select (.mk [.unnamedExpr (.compoundIdentifier ["a", "x"])]
    [.mk (.table "t1" (some "a")) [.mk (.table "t2" (some "b"))]]))

/-- A hand-built graph whose two keys `p` and `q` produce each other —
the spec's §8 adversarial cycle. -/
def cyclicDag : QueryDAG :=
  ⟨[("p", ⟨"p", none, .BaseTable⟩), ("q", ⟨"q", none, .BaseTable⟩)], [],
    [("p", ["q"]), ("q", ["p"])]⟩

/-- The window-function expression of the example query:
`RANK() OVER (PARTITION BY tc.region ORDER BY tc.total_revenue DESC)`. -/
def rankExpr : Expr :=
  .function (.mk "RANK" (.list (.mk [] []))
    (some (.mk [.compoundIdentifier ["tc", "region"]]
      [.compoundIdentifier ["tc", "total_revenue"]])))

/-! ### Association-map lemmas -/

theorem lookupA_insertA_self {α : Type} (k : String) (v : α) (m : List (String × α)) :
    lookupA k (insertA k v m) = some v := by
  induction m with
  | nil => simp [insertA, lookupA]
  | cons hd t ih =>
    obtain ⟨k', v'⟩ := hd
    by_cases hk : k' = k
    · simp [insertA, lookupA, hk]
    · simp [insertA, lookupA, hk, ih]

theorem mem_keys_insertA {α : Type} (k x : String) (v : α) (m : List (String × α)) :
    x ∈ (insertA k v m).map Prod.fst ↔ x = k ∨ x ∈ m.map Prod.fst := by
  induction m with
  | nil => simp [insertA]
  | cons hd t ih =>
    obtain ⟨k', v'⟩ := hd
    by_cases hk : k' = k
    · subst hk
      simp [insertA]
    · simp only [insertA, hk, if_false, List.map_cons, List.mem_cons, ih]
      tauto

theorem nodup_keys_insertA {α : Type} (k : String) (v : α) (m : List (String × α))
    (h : (m.map Prod.fst).Nodup) : ((insertA k v m).map Prod.fst).Nodup := by
  induction m with
  | nil => simp [insertA]
  | cons hd t ih =>
    obtain ⟨k', v'⟩ := hd
    simp only [List.map_cons, List.nodup_cons] at h
    by_cases hk : k' = k
    · subst hk
      simpa [insertA] using h
    · simp only [insertA, hk, if_false, List.map_cons, List.nodup_cons]
      refine ⟨fun hmem => ?_, ih h.2⟩
      rcases (mem_keys_insertA k k' v t).mp hmem with h1 | h1
      · exact hk h1
      · exact h.1 h1

theorem lookupA_eq_none_iff {α : Type} (k : String) (m : List (String × α)) :
    lookupA k m = none ↔ k ∉ m.map Prod.fst := by
  induction m with
  | nil => simp [lookupA]
  | cons hd t ih =>
    obtain ⟨k', v'⟩ := hd
    by_cases hk : k' = k
    · subst hk
      simp [lookupA]
    · simp [lookupA, hk, ih, Ne.symm hk]

theorem depEdges_insertA_nil_of_not_mem (k : String) (m : List (String × List String))
    (h : k ∉ m.map Prod.fst) : depEdges (insertA k [] m) = depEdges m := by
  induction m with
  | nil => simp [insertA, depEdges]
  | cons hd t ih =>
    obtain ⟨k', ps⟩ := hd
    simp only [List.map_cons, List.mem_cons] at h
    push_neg at h
    have hk : k' ≠ k := fun hh => h.1 hh.symm
    simp only [insertA, hk, if_false, depEdges]
    rw [ih h.2]

theorem depEdges_entryOrEmpty (k : String) (m : List (String × List String)) :
    depEdges (entryOrEmpty k m) = depEdges m := by
  unfold entryOrEmpty
  cases h : lookupA k m with
  | some v => rfl
  | none => exact depEdges_insertA_nil_of_not_mem k m ((lookupA_eq_none_iff k m).mp h)

/-! ### Projection-loop lemmas -/

theorem processProjection_tables (dag : QueryDAG) (context : String) (l : List SelectItem) :
    (processProjection dag context l).tables = dag.tables := by
  induction l generalizing dag with
  | nil => rfl
  | cons item rest ih => cases item <;> simp [processProjection, ih]

theorem processProjection_dependencies (dag : QueryDAG) (context : String)
    (l : List SelectItem) :
    (processProjection dag context l).dependencies = dag.dependencies := by
  induction l generalizing dag with
  | nil => rfl
  | cons item rest ih => cases item <;> simp [processProjection, ih]

theorem processProjection_columns (dag : QueryDAG) (context : String) (l : List SelectItem) :
    (processProjection dag context l).columns = dag.columns ++ projectionColumns context l := by
  induction l generalizing dag with
  | nil => simp [processProjection, projectionColumns]
  | cons item rest ih => cases item <;> simp [processProjection, projectionColumns, ih]

/-! ### Walker refinement -/

mutual
theorem walkExpr_eq_specWalk : ∀ (e : Expr) (deps : List String),
    walkExpr e deps = deps ++ specWalk e
  | .identifier v, deps => rfl
  | .compoundIdentifier ids, deps => rfl
  | .binaryOp l op r, deps => by
    show walkExpr r (walkExpr l deps) = deps ++ (specWalk l ++ specWalk r)
    rw [walkExpr_eq_specWalk l deps, walkExpr_eq_specWalk r (deps ++ specWalk l),
      List.append_assoc]
  | .function (.mk n args o), deps => by
    cases args with
    | none => simp [walkExpr, specWalk]
    | subquery => simp [walkExpr, specWalk]
    | list al =>
      obtain ⟨fargs, cls⟩ := al
      show walkArgList (.mk fargs cls) deps = deps ++ specWalkArgs fargs
      exact walkArgList_eq_specWalk (.mk fargs cls) deps
  | .nested e, deps => by
    show walkExpr e deps = deps ++ specWalk e
    exact walkExpr_eq_specWalk e deps
  | .unaryOp op e, deps => by simp [walkExpr, specWalk]
  | .cast e, deps => by simp [walkExpr, specWalk]
  | .caseExpr cs rs, deps => by simp [walkExpr, specWalk]
  | .value v, deps => by simp [walkExpr, specWalk]
  | .other, deps => by simp [walkExpr, specWalk]
termination_by structural e => e
theorem walkArgList_eq_specWalk : ∀ (al : FunctionArgumentList) (deps : List String),
    walkArgList al deps = deps ++ specWalkArgs al.1
  | .mk args cls, deps => by
    show walkArgs args deps = deps ++ specWalkArgs args
    exact walkArgs_eq_specWalk args deps
termination_by structural al => al
theorem walkArgs_eq_specWalk : ∀ (args : List FunctionArg) (deps : List String),
    walkArgs args deps = deps ++ specWalkArgs args
  | [], deps => by simp [walkArgs, specWalkArgs]
  | .unnamed (.expr e) :: rest, deps => by
    show walkArgs rest (walkExpr e deps) = deps ++ (specWalk e ++ specWalkArgs rest)
    rw [walkExpr_eq_specWalk e deps, walkArgs_eq_specWalk rest (deps ++ specWalk e),
      List.append_assoc]
  | .unnamed (.qualifiedWildcard qw) :: rest, deps => by
    show walkArgs rest deps = deps ++ specWalkArgs rest
    exact walkArgs_eq_specWalk rest deps
  | .unnamed .wildcard :: rest, deps => by
    show walkArgs rest deps = deps ++ specWalkArgs rest
    exact walkArgs_eq_specWalk rest deps
  | .named nm a :: rest, deps => by
    show walkArgs rest deps = deps ++ specWalkArgs rest
    exact walkArgs_eq_specWalk rest deps
termination_by structural args => args
end

/-! ### The builder never records an edge -/

mutual
theorem edges_extractFromSelect (dag : QueryDAG) (context : String) :
    ∀ s : Select,
      depEdges (extractFromSelect dag context s).dependencies = depEdges dag.dependencies
  | .mk projection fromClause => by
    show depEdges (processProjection (extractTWJs dag fromClause) context projection).dependencies
        = depEdges dag.dependencies
    rw [processProjection_dependencies, edges_extractTWJs dag fromClause]
termination_by structural s => s
theorem edges_extractTWJs (dag : QueryDAG) :
    ∀ l : List TableWithJoins,
      depEdges (extractTWJs dag l).dependencies = depEdges dag.dependencies
  | [] => rfl
  | .mk relation joins :: rest => by
    show depEdges (extractTWJs (extractJoins (extractTable dag relation) joins)
        rest).dependencies = depEdges dag.dependencies
    rw [edges_extractTWJs _ rest, edges_extractJoins _ joins, edges_extractTable dag relation]
termination_by structural l => l
theorem edges_extractJoins (dag : QueryDAG) :
    ∀ l : List Join, depEdges (extractJoins dag l).dependencies = depEdges dag.dependencies
  | [] => rfl
  | .mk relation :: rest => by
    show depEdges (extractJoins (extractTable dag relation) rest).dependencies
        = depEdges dag.dependencies
    rw [edges_extractJoins _ rest, edges_extractTable dag relation]
termination_by structural l => l
theorem edges_extractTable (dag : QueryDAG) :
    ∀ f : TableFactor, depEdges (extractTable dag f).dependencies = depEdges dag.dependencies
  | .table name al => by
    show depEdges (entryOrEmpty (al.getD name) dag.dependencies) = depEdges dag.dependencies
    exact depEdges_entryOrEmpty _ _
  | .derived (.mk w (.select s)) (some a) => by
    show depEdges (extractFromSelect
        { dag with tables := insertA a ⟨"(subquery)", some a, .Subquery⟩ dag.tables }
        a s).dependencies = depEdges dag.dependencies
    exact edges_extractFromSelect _ a s
  | .derived (.mk w .setOp) (some a) => rfl
  | .derived (.mk w b) none => rfl
  | .otherFactor => rfl
termination_by structural f => f
end

theorem edges_buildCtes (dag : QueryDAG) (l : List Cte) :
    depEdges (buildCtes dag l).dependencies = depEdges dag.dependencies := by
  induction l generalizing dag with
  | nil => rfl
  | cons cte rest ih =>
    obtain ⟨name, q⟩ := cte
    obtain ⟨w, body⟩ := q
    cases body with
    | select s =>
      show depEdges (buildCtes (extractFromSelect
          { dag with tables := insertA name ⟨name, none, .CTE⟩ dag.tables } name s)
          rest).dependencies = depEdges dag.dependencies
      rw [ih, edges_extractFromSelect]
    | setOp =>
      show depEdges (buildCtes
          { dag with tables := insertA name ⟨name, none, .CTE⟩ dag.tables }
          rest).dependencies = depEdges dag.dependencies
      rw [ih]

theorem edges_buildFromQuery (dag : QueryDAG) (q : Query) :
    edgesOf (buildFromQuery dag q) = edgesOf dag := by
  obtain ⟨w, body⟩ := q
  show depEdges (buildFromQuery dag (.mk w body)).dependencies = depEdges dag.dependencies
  cases w with
  | some wc =>
    obtain ⟨ctes⟩ := wc
    cases body with
    | select s =>
      show depEdges (extractFromSelect (buildCtes dag ctes) "__result__" s).dependencies
          = depEdges dag.dependencies
      rw [edges_extractFromSelect, edges_buildCtes]
    | setOp =>
      show depEdges (buildCtes dag ctes).dependencies = depEdges dag.dependencies
      rw [edges_buildCtes]
  | none =>
    cases body with
    | select s =>
      show depEdges (extractFromSelect dag "__result__" s).dependencies
          = depEdges dag.dependencies
      rw [edges_extractFromSelect]
    | setOp => rfl

/-! ### Where table-map keys come from -/

mutual
theorem keys_extractFromSelect (dag : QueryDAG) (context : String) :
    ∀ s : Select,
      tableKeys (extractFromSelect dag context s) ⊆ tableKeys dag ++ declaredSelect s
  | .mk projection fromClause => by
    have h1 : tableKeys (extractFromSelect dag context (.mk projection fromClause))
        = tableKeys (extractTWJs dag fromClause) := by
      show (processProjection (extractTWJs dag fromClause) context projection).tables.map
          Prod.fst = _
      rw [processProjection_tables]; rfl
    rw [h1]
    exact keys_extractTWJs dag fromClause
termination_by structural s => s
theorem keys_extractTWJs (dag : QueryDAG) :
    ∀ l : List TableWithJoins, tableKeys (extractTWJs dag l) ⊆ tableKeys dag ++ declaredTWJs l
  | [] => fun x hx => List.mem_append_left _ hx
  | .mk relation joins :: rest => by
    intro x hx
    have h1 := keys_extractTWJs (extractJoins (extractTable dag relation) joins) rest hx
    show x ∈ tableKeys dag ++ (declaredFactor relation ++ declaredJoins joins
        ++ declaredTWJs rest)
    rcases List.mem_append.mp h1 with h2 | h2
    · have h3 := keys_extractJoins (extractTable dag relation) joins h2
      rcases List.mem_append.mp h3 with h4 | h4
      · have h5 := keys_extractTable dag relation h4
        simp only [List.mem_append] at h5 ⊢
        tauto
      · simp only [List.mem_append]
        tauto
    · simp only [List.mem_append]
      tauto
termination_by structural l => l
theorem keys_extractJoins (dag : QueryDAG) :
    ∀ l : List Join, tableKeys (extractJoins dag l) ⊆ tableKeys dag ++ declaredJoins l
  | [] => fun x hx => List.mem_append_left _ hx
  | .mk relation :: rest => by
    intro x hx
    have h1 := keys_extractJoins (extractTable dag relation) rest hx
    show x ∈ tableKeys dag ++ (declaredFactor relation ++ declaredJoins rest)
    rcases List.mem_append.mp h1 with h2 | h2
    · have h3 := keys_extractTable dag relation h2
      simp only [List.mem_append] at h3 ⊢
      tauto
    · simp only [List.mem_append]
      tauto
termination_by structural l => l
theorem keys_extractTable (dag : QueryDAG) :
    ∀ f : TableFactor, tableKeys (extractTable dag f) ⊆ tableKeys dag ++ declaredFactor f
  | .table name al => by
    intro x hx
    have h1 : x ∈ (insertA (al.getD name) (⟨name, al, .BaseTable⟩ : TableNode)
        dag.tables).map Prod.fst := hx
    rcases (mem_keys_insertA _ x _ _).mp h1 with h2 | h2
    · subst h2
      exact List.mem_append_right _ (by simp [declaredFactor])
    · exact List.mem_append_left _ h2
  | .derived (.mk w (.select s)) (some a) => by
    intro x hx
    have h1 := keys_extractFromSelect
      { dag with tables := insertA a ⟨"(subquery)", some a, .Subquery⟩ dag.tables } a s hx
    show x ∈ tableKeys dag ++ (a :: declaredSelect s)
    rcases List.mem_append.mp h1 with h2 | h2
    · rcases (mem_keys_insertA a x _ dag.tables).mp h2 with h3 | h3
      · subst h3
        exact List.mem_append_right _ (List.mem_cons_self _ _)
      · exact List.mem_append_left _ h3
    · exact List.mem_append_right _ (List.mem_cons_of_mem _ h2)
  | .derived (.mk w .setOp) (some a) => by
    intro x hx
    have h1 : x ∈ (insertA a (⟨"(subquery)", some a, .Subquery⟩ : TableNode)
        dag.tables).map Prod.fst := hx
    rcases (mem_keys_insertA a x _ dag.tables).mp h1 with h2 | h2
    · subst h2
      exact List.mem_append_right _ (List.mem_cons_self _ _)
    · exact List.mem_append_left _ h2
  | .derived (.mk w b) none => fun x hx => List.mem_append_left _ hx
  | .otherFactor => fun x hx => List.mem_append_left _ hx
termination_by structural f => f
end

theorem keys_buildCtes (dag : QueryDAG) (l : List Cte) :
    tableKeys (buildCtes dag l) ⊆ tableKeys dag ++ declaredCtes l := by
  induction l generalizing dag with
  | nil => exact fun x hx => List.mem_append_left _ hx
  | cons cte rest ih =>
    obtain ⟨name, q⟩ := cte
    obtain ⟨w, body⟩ := q
    intro x hx
    show x ∈ tableKeys dag ++ (name ::
      ((match (Query.mk w body : Query) with
        | .mk _ (.select s) => declaredSelect s
        | .mk _ .setOp => []) ++ declaredCtes rest))
    cases body with
    | select s =>
      have h1 := ih (extractFromSelect
        { dag with tables := insertA name ⟨name, none, .CTE⟩ dag.tables } name s) hx
      rcases List.mem_append.mp h1 with h2 | h2
      · have h3 := keys_extractFromSelect
          { dag with tables := insertA name ⟨name, none, .CTE⟩ dag.tables } name s h2
        rcases List.mem_append.mp h3 with h4 | h4
        · rcases (mem_keys_insertA name x _ dag.tables).mp h4 with h5 | h5
          · subst h5
            simp
          · exact List.mem_append_left _ h5
        · simp only [List.mem_append, List.mem_cons]
          tauto
      · simp only [List.mem_append, List.mem_cons]
        tauto
    | setOp =>
      have h1 := ih { dag with tables := insertA name ⟨name, none, .CTE⟩ dag.tables } hx
      rcases List.mem_append.mp h1 with h2 | h2
      · rcases (mem_keys_insertA name x _ dag.tables).mp h2 with h3 | h3
        · subst h3
          simp
        · exact List.mem_append_left _ h3
      · simp only [List.mem_append, List.mem_cons]
        tauto

theorem keys_buildFromQuery (dag : QueryDAG) (q : Query) :
    tableKeys (buildFromQuery dag q) ⊆ tableKeys dag ++ declaredQuery q := by
  obtain ⟨w, body⟩ := q
  cases w with
  | some wc =>
    obtain ⟨ctes⟩ := wc
    cases body with
    | select s =>
      intro x hx
      have h1 := keys_extractFromSelect (buildCtes dag ctes) "__result__" s hx
      show x ∈ tableKeys dag ++ (declaredCtes ctes ++ declaredSelect s)
      rcases List.mem_append.mp h1 with h2 | h2
      · have h3 := keys_buildCtes dag ctes h2
        simp only [List.mem_append] at h3 ⊢
        tauto
      · simp only [List.mem_append]
        tauto
    | setOp =>
      intro x hx
      have h1 := keys_buildCtes dag ctes hx
      show x ∈ tableKeys dag ++ (declaredCtes ctes ++ [])
      simp only [List.mem_append] at h1 ⊢
      tauto
  | none =>
    cases body with
    | select s =>
      intro x hx
      exact keys_extractFromSelect dag "__result__" s hx
    | setOp => exact fun x hx => List.mem_append_left _ hx

/-! ### Graph algorithm lemmas: picking, sorting, paths -/

theorem blocked_iff (E : List (String × String)) (rem : List String) (c : String) :
    blocked E rem c = true ↔ ∃ p ∈ rem, (p, c) ∈ E := by
  unfold blocked
  rw [List.any_eq_true]
  constructor
  · rintro ⟨⟨p, c'⟩, heE, he⟩
    simp only [Bool.and_eq_true, decide_eq_true_eq] at he
    obtain ⟨h1, h2⟩ := he
    subst h1
    exact ⟨p, h2, heE⟩
  · rintro ⟨p, hp, hpE⟩
    exact ⟨(p, c), hpE, by simp [hp]⟩

theorem pick_mem {E : List (String × String)} {rem : List String} {c : String}
    (h : pick E rem = some c) : c ∈ rem :=
  List.mem_of_find?_eq_some h

theorem pick_not_blocked {E : List (String × String)} {rem : List String} {c : String}
    (h : pick E rem = some c) : blocked E rem c = false := by
  have h1 := List.find?_some h
  simpa using h1

theorem pick_none {E : List (String × String)} {rem : List String}
    (h : pick E rem = none) : ∀ c ∈ rem, blocked E rem c = true := by
  intro c hc
  have h1 := List.find?_eq_none.mp h c hc
  simpa using h1

theorem insertSorted_perm (a : String) (l : List String) :
    (insertSorted a l).Perm (a :: l) := by
  induction l with
  | nil => exact List.Perm.refl _
  | cons b t ih =>
    by_cases h : strLe a b = true
    · simp only [insertSorted, h, if_true]
      exact List.Perm.refl _
    · simp only [insertSorted, h, if_false]
      exact (ih.cons b).trans (List.Perm.swap a b t)

theorem sortKeys_perm (l : List String) : (sortKeys l).Perm l := by
  induction l with
  | nil => exact List.Perm.refl _
  | cons a t ih => exact (insertSorted_perm a (sortKeys t)).trans (ih.cons a)

theorem topoNodes_nodup (g : QueryDAG) : (topoNodes g).Nodup :=
  (sortKeys_perm (tableKeys g).dedup).nodup_iff.mpr (List.nodup_dedup _)

theorem mem_topoNodes (g : QueryDAG) (x : String) :
    x ∈ topoNodes g ↔ x ∈ (tableKeys g).dedup :=
  (sortKeys_perm _).mem_iff

theorem stepIn_spec {ns : List String} {E : List (String × String)} {a b : String}
    (h : stepIn ns E a b = true) : a ∈ ns ∧ b ∈ ns ∧ (a, b) ∈ E := by
  simp only [stepIn, Bool.and_eq_true, decide_eq_true_eq] at h
  exact ⟨h.1.1, h.1.2, h.2⟩

theorem stepIn_subset {rem ns : List String} (hsub : rem ⊆ ns)
    (E : List (String × String)) {a b : String}
    (h : stepIn rem E a b = true) : stepIn ns E a b = true := by
  simp only [stepIn, Bool.and_eq_true, decide_eq_true_eq] at h ⊢
  exact ⟨⟨hsub h.1.1, hsub h.1.2⟩, h.2⟩

theorem pathIn_mono_bound (ns : List String) (E : List (String × String)) :
    ∀ (n : Nat) (a b : String), pathIn ns E n a b = true → pathIn ns E (n + 1) a b = true := by
  intro n
  induction n with
  | zero =>
    intro a b h
    exact absurd h (by simp [pathIn])
  | succ m ih =>
    intro a b h
    simp only [pathIn, Bool.or_eq_true, List.any_eq_true, Bool.and_eq_true] at h
    rcases h with h | ⟨x, hx, hs, hp⟩
    · show (stepIn ns E a b
          || ns.any fun y => stepIn ns E a y && pathIn ns E (m + 1) y b) = true
      rw [h]
      simp
    · show (stepIn ns E a b
          || ns.any fun y => stepIn ns E a y && pathIn ns E (m + 1) y b) = true
      have hany : (ns.any fun y => stepIn ns E a y && pathIn ns E (m + 1) y b) = true :=
        List.any_eq_true.mpr ⟨x, hx, by rw [hs, ih x b hp]; rfl⟩
      rw [hany]
      simp

theorem pathIn_mono_le (ns : List String) (E : List (String × String)) {n m : Nat}
    (h : n ≤ m) : ∀ a b, pathIn ns E n a b = true → pathIn ns E m a b = true := by
  induction h with
  | refl => exact fun a b hh => hh
  | step _ ih => exact fun a b hh => pathIn_mono_bound ns E _ a b (ih a b hh)

theorem pathIn_subset {rem ns : List String} (hsub : rem ⊆ ns)
    (E : List (String × String)) :
    ∀ (n : Nat) (a b : String), pathIn rem E n a b = true → pathIn ns E n a b = true := by
  intro n
  induction n with
  | zero => intro a b h; exact absurd h (by simp [pathIn])
  | succ m ih =>
    intro a b h
    simp only [pathIn, Bool.or_eq_true, List.any_eq_true, Bool.and_eq_true] at h ⊢
    rcases h with h | ⟨x, hx, hs, hp⟩
    · exact Or.inl (stepIn_subset hsub E h)
    · exact Or.inr ⟨x, hsub hx, stepIn_subset hsub E hs, ih _ _ hp⟩

theorem pathIn_to_chainW (ns : List String) (E : List (String × String)) :
    ∀ (n : Nat) (a b : String), pathIn ns E n a b = true → ∃ l, chainW ns E a l b := by
  intro n
  induction n with
  | zero => intro a b h; exact absurd h (by simp [pathIn])
  | succ m ih =>
    intro a b h
    simp only [pathIn, Bool.or_eq_true, List.any_eq_true, Bool.and_eq_true] at h
    rcases h with h | ⟨x, hx, hs, hp⟩
    · exact ⟨[], h⟩
    · obtain ⟨l, hl⟩ := ih x b hp
      exact ⟨x :: l, hs, hl⟩

theorem chainW_mem (ns : List String) (E : List (String × String)) :
    ∀ (l : List String) (a b : String), chainW ns E a l b →
      ∀ m ∈ a :: l, m ∈ ns := by
  intro l
  induction l with
  | nil =>
    intro a b h m hm
    obtain ⟨ha, _, _⟩ := stepIn_spec h
    rcases List.mem_cons.mp hm with hm | hm
    · exact hm ▸ ha
    · exact absurd hm (List.not_mem_nil m)
  | cons x t ih =>
    intro a b h m hm
    obtain ⟨hs, hc⟩ := h
    obtain ⟨ha, _, _⟩ := stepIn_spec hs
    rcases List.mem_cons.mp hm with hm | hm
    · exact hm ▸ ha
    · exact ih x b hc m hm

theorem chainW_pred (ns : List String) (E : List (String × String)) :
    ∀ (l : List String) (a b : String), chainW ns E a l b →
      ∀ m ∈ l ++ [b], ∃ p ∈ a :: l, stepIn ns E p m = true := by
  intro l
  induction l with
  | nil =>
    intro a b h m hm
    simp only [List.nil_append, List.mem_singleton] at hm
    subst hm
    exact ⟨a, List.mem_cons_self a [], h⟩
  | cons x t ih =>
    intro a b h m hm
    obtain ⟨hs, hc⟩ := h
    simp only [List.cons_append, List.mem_cons] at hm
    rcases hm with hm | hm
    · subst hm
      exact ⟨a, List.mem_cons_self _ _, hs⟩
    · obtain ⟨p, hp, hps⟩ := ih x b hc m (by simpa using hm)
      exact ⟨p, List.mem_cons_of_mem a hp, hps⟩

theorem nodup_subset_length_le {l₁ l₂ : List String} (hnd : l₁.Nodup) (hsub : l₁ ⊆ l₂) :
    l₁.length ≤ l₂.length := by
  calc l₁.length = l₁.toFinset.card := (List.toFinset_card_of_nodup hnd).symm
    _ ≤ l₂.toFinset.card :=
      Finset.card_le_card fun x hx => List.mem_toFinset.mpr (hsub (List.mem_toFinset.mp hx))
    _ ≤ l₂.length := l₂.toFinset_card_le

/-! ### Kahn's algorithm: stuck nodes, progress, completeness, edge order -/

theorem kahnAux_succ_none {E : List (String × String)} {fuel : Nat} {rem : List String}
    (h : pick E rem = none) : kahnAux E (fuel + 1) rem = ([], rem) := by
  show (match pick E rem with
      | none => (([] : List String), rem)
      | some c => (c :: (kahnAux E fuel (rem.erase c)).1,
          (kahnAux E fuel (rem.erase c)).2)) = ([], rem)
  rw [h]

theorem kahnAux_succ_some {E : List (String × String)} {fuel : Nat} {rem : List String}
    {c : String} (h : pick E rem = some c) :
    kahnAux E (fuel + 1) rem
      = (c :: (kahnAux E fuel (rem.erase c)).1, (kahnAux E fuel (rem.erase c)).2) := by
  show (match pick E rem with
      | none => (([] : List String), rem)
      | some c => (c :: (kahnAux E fuel (rem.erase c)).1,
          (kahnAux E fuel (rem.erase c)).2))
      = (c :: (kahnAux E fuel (rem.erase c)).1, (kahnAux E fuel (rem.erase c)).2)
  rw [h]

theorem kahn_stuck (E : List (String × String)) (W : List String)
    (hWpred : ∀ m ∈ W, ∃ p ∈ W, (p, m) ∈ E) :
    ∀ (fuel : Nat) (rem : List String), W ⊆ rem → W ⊆ (kahnAux E fuel rem).2 := by
  intro fuel
  induction fuel with
  | zero => intro rem hW; exact hW
  | succ f ih =>
    intro rem hW
    cases h : pick E rem with
    | none =>
      rw [kahnAux_succ_none h]
      exact hW
    | some c =>
      rw [kahnAux_succ_some h]
      have hcW : c ∉ W := by
        intro hc
        obtain ⟨p, hpW, hpE⟩ := hWpred c hc
        have hb : blocked E rem c = true := (blocked_iff E rem c).mpr ⟨p, hW hpW, hpE⟩
        rw [pick_not_blocked h] at hb
        exact Bool.false_ne_true hb
      have hW' : W ⊆ rem.erase c := by
        intro m hm
        have hne : m ≠ c := fun hh => hcW (hh ▸ hm)
        exact (List.mem_erase_of_ne hne).mpr (hW hm)
      exact ih (rem.erase c) hW'

theorem all_blocked_cycle (E : List (String × String)) (rem : List String)
    (hne : rem ≠ []) (hall : ∀ c ∈ rem, blocked E rem c = true) :
    ∃ k ∈ rem, pathIn rem E rem.length k k = true := by
  have hch : ∀ c, ∃ p, c ∈ rem → p ∈ rem ∧ (p, c) ∈ E := by
    intro c
    by_cases hc : c ∈ rem
    · obtain ⟨p, hp, hpE⟩ := (blocked_iff E rem c).mp (hall c hc)
      exact ⟨p, fun _ => ⟨hp, hpE⟩⟩
    · exact ⟨c, fun hh => absurd hh hc⟩
  choose pred hpred using hch
  obtain ⟨c0, hc0⟩ := List.exists_mem_of_ne_nil rem hne
  let f : Nat → String := fun n => Nat.rec (motive := fun _ => String) c0 (fun _ x => pred x) n
  have hfs : ∀ n, f (n + 1) = pred (f n) := fun n => rfl
  have hfmem : ∀ n, f n ∈ rem := by
    intro n
    induction n with
    | zero => exact hc0
    | succ m ih =>
      rw [hfs]
      exact (hpred (f m) ih).1
  have hedge : ∀ n, (f (n + 1), f n) ∈ E := by
    intro n
    rw [hfs]
    exact (hpred (f n) (hfmem n)).2
  have hpath : ∀ d, 1 ≤ d → ∀ i : Nat, pathIn rem E d (f (i + d)) (f i) = true := by
    intro d
    induction d with
    | zero => intro h; exact absurd h (by omega)
    | succ m ih =>
      intro _ i
      cases Nat.eq_zero_or_pos m with
      | inl hm0 =>
        subst hm0
        show (stepIn rem E (f (i + 1)) (f i)
            || rem.any fun y => stepIn rem E (f (i + 1)) y && pathIn rem E 0 y (f i)) = true
        have hstep : stepIn rem E (f (i + 1)) (f i) = true := by
          simp only [stepIn, Bool.and_eq_true, decide_eq_true_eq]
          exact ⟨⟨hfmem (i + 1), hfmem i⟩, hedge i⟩
        rw [hstep]
        simp
      | inr hm1 =>
        show (stepIn rem E (f (i + m + 1)) (f i)
            || rem.any fun y => stepIn rem E (f (i + m + 1)) y && pathIn rem E m y (f i)) = true
        have hstep : stepIn rem E (f (i + m + 1)) (f (i + m)) = true := by
          simp only [stepIn, Bool.and_eq_true, decide_eq_true_eq]
          exact ⟨⟨hfmem (i + m + 1), hfmem (i + m)⟩, hedge (i + m)⟩
        have hrec : pathIn rem E m (f (i + m)) (f i) = true := ih hm1 i
        have hany : (rem.any fun y
            => stepIn rem E (f (i + m + 1)) y && pathIn rem E m y (f i)) = true :=
          List.any_eq_true.mpr ⟨f (i + m), hfmem (i + m), by rw [hstep, hrec]; rfl⟩
        rw [hany]
        simp
  have hcard : rem.toFinset.card < (Finset.univ : Finset (Fin (rem.length + 1))).card := by
    rw [Finset.card_univ, Fintype.card_fin]
    exact Nat.lt_succ_of_le rem.toFinset_card_le
  have hmaps : ∀ i ∈ (Finset.univ : Finset (Fin (rem.length + 1))),
      f i.val ∈ rem.toFinset := fun i _ => List.mem_toFinset.mpr (hfmem i.val)
  obtain ⟨i, _, j, _, hij, hfij⟩ :=
    Finset.exists_ne_map_eq_of_card_lt_of_maps_to hcard hmaps
  have main : ∀ i j : Fin (rem.length + 1), i.val < j.val → f i.val = f j.val →
      ∃ k ∈ rem, pathIn rem E rem.length k k = true := by
    intro i j hlt heq
    have hd1 : 1 ≤ j.val - i.val := by omega
    have hjle : j.val ≤ rem.length := by omega
    have hdle : j.val - i.val ≤ rem.length := by omega
    have hp := hpath (j.val - i.val) hd1 i.val
    rw [show i.val + (j.val - i.val) = j.val by omega] at hp
    rw [← heq] at hp
    exact ⟨f i.val, hfmem i.val, pathIn_mono_le rem E hdle _ _ hp⟩
  rcases Nat.lt_or_ge i.val j.val with h | h
  · exact main i j h hfij
  · have hlt : j.val < i.val := by
      rcases Nat.lt_or_ge j.val i.val with h2 | h2
      · exact h2
      · exact absurd (Fin.ext (by omega)) hij
    exact main j i hlt hfij.symm

theorem kahn_complete (ns₀ : List String) (E : List (String × String))
    (hacyc : hasCycleIn ns₀ E = false) :
    ∀ (n : Nat) (rem : List String), rem.length = n → rem.Nodup → rem ⊆ ns₀ →
      (kahnAux E n rem).2 = [] ∧ (kahnAux E n rem).1.Perm rem := by
  intro n
  induction n with
  | zero =>
    intro rem hlen _ _
    have hnil : rem = [] := List.eq_nil_of_length_eq_zero hlen
    subst hnil
    exact ⟨rfl, List.Perm.refl _⟩
  | succ m ih =>
    intro rem hlen hnd hsub
    cases hp : pick E rem with
    | none =>
      exfalso
      have hne : rem ≠ [] := by
        intro hh
        rw [hh] at hlen
        simp at hlen
      obtain ⟨k, hk, hpath⟩ := all_blocked_cycle E rem hne (pick_none hp)
      have hlen_le : rem.length ≤ ns₀.length := nodup_subset_length_le hnd hsub
      have hpath2 : pathIn ns₀ E ns₀.length k k = true :=
        pathIn_mono_le ns₀ E hlen_le _ _ (pathIn_subset hsub E rem.length k k hpath)
      have htrue : hasCycleIn ns₀ E = true := List.any_eq_true.mpr ⟨k, hsub hk, hpath2⟩
      rw [hacyc] at htrue
      exact Bool.false_ne_true htrue
    | some c =>
      have hc := pick_mem hp
      have hlen' : (rem.erase c).length = m := by
        rw [List.length_erase_of_mem hc, hlen]
        omega
      have hsub' : rem.erase c ⊆ ns₀ := fun x hx => hsub (List.mem_of_mem_erase hx)
      obtain ⟨h1, h2⟩ := ih (rem.erase c) hlen' (hnd.erase c) hsub'
      rw [kahnAux_succ_some hp]
      refine ⟨h1, ?_⟩
      exact (h2.cons c).trans (List.perm_cons_erase hc).symm

theorem kahn_edge_order (ns₀ : List String) (E : List (String × String))
    (hacyc : hasCycleIn ns₀ E = false) :
    ∀ (n : Nat) (rem : List String), rem.length = n → rem.Nodup → rem ⊆ ns₀ →
      ∀ p c, (p, c) ∈ E → p ∈ rem → c ∈ rem →
        List.Sublist [p, c] (kahnAux E n rem).1 := by
  intro n
  induction n with
  | zero =>
    intro rem hlen _ _ p c _ hp _
    have hnil : rem = [] := List.eq_nil_of_length_eq_zero hlen
    subst hnil
    exact absurd hp (List.not_mem_nil p)
  | succ m ih =>
    intro rem hlen hnd hsub p c hpcE hp hc
    cases hpk : pick E rem with
    | none =>
      exfalso
      have hne : rem ≠ [] := fun hh => by
        rw [hh] at hp
        exact List.not_mem_nil p hp
      obtain ⟨k, hk, hpath⟩ := all_blocked_cycle E rem hne (pick_none hpk)
      have hlen_le : rem.length ≤ ns₀.length := nodup_subset_length_le hnd hsub
      have hpath2 : pathIn ns₀ E ns₀.length k k = true :=
        pathIn_mono_le ns₀ E hlen_le _ _ (pathIn_subset hsub E rem.length k k hpath)
      have htrue : hasCycleIn ns₀ E = true := List.any_eq_true.mpr ⟨k, hsub hk, hpath2⟩
      rw [hacyc] at htrue
      exact Bool.false_ne_true htrue
    | some c₀ =>
      have hc₀mem := pick_mem hpk
      rw [kahnAux_succ_some hpk]
      have hcne : c ≠ c₀ := by
        intro hh
        subst hh
        have hb : blocked E rem c = true := (blocked_iff E rem c).mpr ⟨p, hp, hpcE⟩
        rw [pick_not_blocked hpk] at hb
        exact Bool.false_ne_true hb
      have hlen' : (rem.erase c₀).length = m := by
        rw [List.length_erase_of_mem hc₀mem, hlen]
        omega
      have hsub' : rem.erase c₀ ⊆ ns₀ := fun x hx => hsub (List.mem_of_mem_erase hx)
      by_cases hpc₀ : p = c₀
      · subst hpc₀
        have hcerase : c ∈ rem.erase p := (List.mem_erase_of_ne hcne).mpr hc
        have hperm := (kahn_complete ns₀ E hacyc m (rem.erase p) hlen'
          (hnd.erase p) hsub').2
        have hcord : c ∈ (kahnAux E m (rem.erase p)).1 := hperm.mem_iff.mpr hcerase
        exact (List.singleton_sublist.mpr hcord).cons₂ p
      · have hperase : p ∈ rem.erase c₀ := (List.mem_erase_of_ne hpc₀).mpr hp
        have hcerase : c ∈ rem.erase c₀ := (List.mem_erase_of_ne hcne).mpr hc
        exact (ih (rem.erase c₀) hlen' (hnd.erase c₀) hsub' p c hpcE hperase hcerase).cons c₀

theorem sublist_pair_indexOf {a b : String} : ∀ {l : List String}, l.Nodup →
    List.Sublist [a, b] l → l.indexOf a < l.indexOf b := by
  intro l
  induction l with
  | nil =>
    intro _ h
    exact absurd (h.subset (List.mem_cons_self a [b])) (List.not_mem_nil a)
  | cons x t ih =>
    intro hnd h
    rw [List.nodup_cons] at hnd
    cases h with
    | cons _ h' =>
      have ha : a ∈ t := h'.subset (List.mem_cons_self a [b])
      have hb : b ∈ t := h'.subset (List.mem_cons_of_mem a (List.mem_cons_self b []))
      have hxa : x ≠ a := fun hh => hnd.1 (hh ▸ ha)
      have hxb : x ≠ b := fun hh => hnd.1 (hh ▸ hb)
      rw [List.indexOf_cons_ne t hxa, List.indexOf_cons_ne t hxb]
      exact Nat.succ_lt_succ (ih hnd.2 h')
    | cons₂ _ h' =>
      have hb : b ∈ t := List.singleton_sublist.mp h'
      have hab : a ≠ b := fun hh => hnd.1 (hh ▸ hb)
      rw [List.indexOf_cons_self, List.indexOf_cons_ne t hab]
      exact Nat.succ_pos _

/-! ### Validity, cycles and `topologicalOrder` -/

theorem chainW_valid_indexOf (g : QueryDAG) (ord : List String)
    (hval : isValidOrder g ord) :
    ∀ (l : List String) (a b : String), chainW (topoNodes g) (edgesOf g) a l b →
      ord.indexOf a < ord.indexOf b := by
  obtain ⟨hperm, hedge⟩ := hval
  have hmem : ∀ x, x ∈ topoNodes g → x ∈ ord := by
    intro x hx
    rw [hperm.mem_iff]
    exact (mem_topoNodes g x).mp hx
  intro l
  induction l with
  | nil =>
    intro a b h
    obtain ⟨ha, hb, hab⟩ := stepIn_spec h
    exact hedge a b hab (hmem a ha) (hmem b hb)
  | cons x t ih =>
    intro a b h
    obtain ⟨hs, hc⟩ := h
    obtain ⟨ha, hx, hax⟩ := stepIn_spec hs
    exact lt_trans (hedge a x hax (hmem a ha) (hmem x hx)) (ih x b hc)

theorem cycle_not_valid (g : QueryDAG)
    (hcyc : hasCycleIn (topoNodes g) (edgesOf g) = true) :
    ¬ ∃ ord, isValidOrder g ord := by
  rintro ⟨ord, hval⟩
  obtain ⟨k, hk, hpath⟩ := List.any_eq_true.mp hcyc
  obtain ⟨l, hl⟩ := pathIn_to_chainW _ _ _ k k hpath
  exact lt_irrefl _ (chainW_valid_indexOf g ord hval l k k hl)

theorem acyclic_valid_order (g : QueryDAG)
    (hacyc : hasCycleIn (topoNodes g) (edgesOf g) = false) :
    topologicalOrder g
        = .ok (kahnAux (edgesOf g) (topoNodes g).length (topoNodes g)).1 ∧
      isValidOrder g (kahnAux (edgesOf g) (topoNodes g).length (topoNodes g)).1 := by
  have hnd := topoNodes_nodup g
  have hsub : topoNodes g ⊆ topoNodes g := fun x hx => hx
  obtain ⟨hleft, hperm⟩ := kahn_complete (topoNodes g) (edgesOf g) hacyc
    (topoNodes g).length (topoNodes g) rfl hnd hsub
  constructor
  · show (if ((kahnAux (edgesOf g) (topoNodes g).length (topoNodes g)).2).isEmpty
        then Except.ok (kahnAux (edgesOf g) (topoNodes g).length (topoNodes g)).1
        else _) = _
    rw [hleft]
    rfl
  · constructor
    · exact hperm.trans (sortKeys_perm _)
    · intro p c hpc hpo hco
      have hordnd : (kahnAux (edgesOf g) (topoNodes g).length (topoNodes g)).1.Nodup :=
        hperm.nodup_iff.mpr hnd
      have hpn : p ∈ topoNodes g := hperm.mem_iff.mp hpo
      have hcn : c ∈ topoNodes g := hperm.mem_iff.mp hco
      exact sublist_pair_indexOf hordnd
        (kahn_edge_order (topoNodes g) (edgesOf g) hacyc (topoNodes g).length
          (topoNodes g) rfl hnd hsub p c hpc hpn hcn)

theorem cyclic_topologicalOrder_error (g : QueryDAG)
    (hcyc : hasCycleIn (topoNodes g) (edgesOf g) = true) :
    topologicalOrder g = .error (.cycleDetected ((topoNodes g).filter
        (fun k => pathIn (topoNodes g) (edgesOf g) (topoNodes g).length k k))) := by
  obtain ⟨k, hk, hpath⟩ := List.any_eq_true.mp hcyc
  obtain ⟨l, hl⟩ := pathIn_to_chainW _ _ _ k k hpath
  have hWmem : (k :: l) ⊆ topoNodes g := fun m hm =>
    chainW_mem (topoNodes g) (edgesOf g) l k k hl m hm
  have hWpred : ∀ m ∈ k :: l, ∃ p ∈ k :: l, (p, m) ∈ edgesOf g := by
    intro m hm
    rcases List.mem_cons.mp hm with hm | hm
    · subst hm
      obtain ⟨p, hp, hps⟩ := chainW_pred (topoNodes g) (edgesOf g) l m m hl m (by simp)
      exact ⟨p, hp, (stepIn_spec hps).2.2⟩
    · obtain ⟨p, hp, hps⟩ := chainW_pred (topoNodes g) (edgesOf g) l k k hl m
        (by simp [hm])
      exact ⟨p, hp, (stepIn_spec hps).2.2⟩
  have hkleft : k ∈ (kahnAux (edgesOf g) (topoNodes g).length (topoNodes g)).2 :=
    kahn_stuck (edgesOf g) (k :: l) hWpred (topoNodes g).length (topoNodes g) hWmem
      (List.mem_cons_self k l)
  have hne : ((kahnAux (edgesOf g) (topoNodes g).length (topoNodes g)).2).isEmpty
      = false := by
    cases hcase : (kahnAux (edgesOf g) (topoNodes g).length (topoNodes g)).2 with
    | nil =>
      rw [hcase] at hkleft
      exact absurd hkleft (List.not_mem_nil k)
    | cons y ys => rfl
  simp only [topologicalOrder]
  rw [hne]
  rfl

/-! ### Claim theorems -/

/-- Claim C1: for every input query whose accumulated dependency graph is
acyclic, `topologicalOrder` returns an ordered sequence of table keys whose
length equals the number of distinct table keys in the graph, and every
edge's producer is positioned before its consumer. -/
theorem c1_topologicalOrder_acyclic (q : Query)
    (hacyc : hasCycleIn (topoNodes (build q)) (edgesOf (build q)) = false) :
    ∃ ord, topologicalOrder (build q) = .ok ord ∧
      ord.length = ((tableKeys (build q)).dedup).length ∧
      ∀ p c, (p, c) ∈ edgesOf (build q) → ord.indexOf p < ord.indexOf c := by
  obtain ⟨hok, hval⟩ := acyclic_valid_order (build q) hacyc
  refine ⟨_, hok, hval.1.length_eq, ?_⟩
  intro p c hpc
  have hE : edgesOf (build q) = [] := (edges_buildFromQuery QueryDAG.new q).trans rfl
  rw [hE] at hpc
  exact absurd hpc (List.not_mem_nil _)

/-- Witness for C1 at the concrete input `SELECT a.x FROM t1 a JOIN t2 b`. -/
theorem c1_topologicalOrder_acyclic_witness :
    hasCycleIn (topoNodes (build joinQuery)) (edgesOf (build joinQuery)) = false ∧
    (∃ ord, topologicalOrder (build joinQuery) = .ok ord ∧
      ord.length = ((tableKeys (build joinQuery)).dedup).length ∧
      ∀ p c, (p, c) ∈ edgesOf (build joinQuery) → ord.indexOf p < ord.indexOf c) :=
  ⟨by decide, c1_topologicalOrder_acyclic joinQuery (by decide)⟩

/-- Claim C2 (counterexample): on the spec's own example input
`WITH s AS (SELECT c.id FROM customers c) SELECT s.id FROM s` the builder
records no edges at all — neither `(customers-key, s)` (under either
candidate key) nor `(s, __result__)` — refuting the claimed edge set. -/
theorem c2_edges_counterexample :
    edgesOf (build exampleQuery) = [] ∧
    ("customers", "s") ∉ edgesOf (build exampleQuery) ∧
    ("c", "s") ∉ edgesOf (build exampleQuery) ∧
    ("s", "__result__") ∉ edgesOf (build exampleQuery) := by
  decide

/-- Claim C2 (amended): graph construction records no edges whatsoever —
`build_from_query` leaves the edge list of the accumulated graph unchanged
(each base-table key is merely given an empty producer set) — and on the
example input it produces tables keyed `s` and `c` (with `s` re-registered
as a BaseTable by the final FROM clause), producer sets
`{c ↦ ∅, s ↦ ∅}`, an empty edge set, and no `__result__` entity. -/
theorem c2_edges_amended :
    (∀ (dag : QueryDAG) (q : Query), edgesOf (buildFromQuery dag q) = edgesOf dag) ∧
    (build exampleQuery).tables = [("s", ⟨"s", none, .BaseTable⟩),
      ("c", ⟨"customers", some "c", .BaseTable⟩)] ∧
    (build exampleQuery).dependencies = [("c", []), ("s", [])] ∧
    edgesOf (build exampleQuery) = [] ∧
    lookupA "__result__" (build exampleQuery).tables = none :=
  ⟨edges_buildFromQuery, by decide, by decide, rfl, by decide⟩

/-- Claim C3: for every graph that admits no valid topological order,
`topologicalOrder` fails with a `CycleDetected` condition carrying a
nonempty set of keys each of which lies on a cycle; the failure is the
result returned to the caller, and graph construction itself is total. -/
theorem c3_cycleDetected (g : QueryDAG) (hnone : ¬ ∃ ord, isValidOrder g ord) :
    (∃ S, topologicalOrder g = .error (.cycleDetected S) ∧ S ≠ [] ∧
      ∀ k ∈ S, pathIn (topoNodes g) (edgesOf g) (topoNodes g).length k k = true) ∧
    (∀ (dag : QueryDAG) (q : Query), ∃ g', buildFromQuery dag q = g') := by
  have hcyc : hasCycleIn (topoNodes g) (edgesOf g) = true := by
    cases hb : hasCycleIn (topoNodes g) (edgesOf g) with
    | true => rfl
    | false =>
      obtain ⟨_, hval⟩ := acyclic_valid_order g hb
      exact absurd ⟨_, hval⟩ hnone
  obtain ⟨k, hk, hpath⟩ := List.any_eq_true.mp hcyc
  refine ⟨⟨(topoNodes g).filter
      (fun k => pathIn (topoNodes g) (edgesOf g) (topoNodes g).length k k),
      cyclic_topologicalOrder_error g hcyc, ?_, ?_⟩, fun dag q => ⟨_, rfl⟩⟩
  · exact List.ne_nil_of_mem (List.mem_filter.mpr ⟨hk, hpath⟩)
  · intro k' hk'
    exact (List.mem_filter.mp hk').2

/-- Witness for C3 at the hand-built two-key cycle `p ⇄ q`. -/
theorem c3_cycleDetected_witness :
    (¬ ∃ ord, isValidOrder cyclicDag ord) ∧
    ((∃ S, topologicalOrder cyclicDag = .error (.cycleDetected S) ∧ S ≠ [] ∧
      ∀ k ∈ S, pathIn (topoNodes cyclicDag) (edgesOf cyclicDag)
        (topoNodes cyclicDag).length k k = true) ∧
    (∀ (dag : QueryDAG) (q : Query), ∃ g', buildFromQuery dag q = g')) :=
  ⟨cycle_not_valid cyclicDag (by decide),
    c3_cycleDetected cyclicDag (cycle_not_valid cyclicDag (by decide))⟩

/-- Claim C4 (counterexample): the sentinel `__result__` is absent from the
table map produced for `SELECT * FROM t`, refuting "present exactly once". -/
theorem c4_sentinel_counterexample :
    lookupA "__result__" (build starQuery).tables = none ∧
    (build starQuery).tables = [("t", ⟨"t", none, .BaseTable⟩)] := by
  decide

/-- Claim C4 (amended): the builder never inserts the sentinel into the
table map: every key of the built table map is a key of the input
accumulator or a CTE name, base-table key or derived-subquery alias
occurring in the query, so whenever the query itself declares no entity
keyed `__result__`, the built table map has no `__result__` entry (the
sentinel is used only as the context string of column-lineage records). -/
theorem c4_sentinel_amended :
    (∀ (dag : QueryDAG) (q : Query),
      tableKeys (buildFromQuery dag q) ⊆ tableKeys dag ++ declaredQuery q) ∧
    (∀ q : Query, "__result__" ∉ declaredQuery q →
      lookupA "__result__" (build q).tables = none) := by
  refine ⟨keys_buildFromQuery, ?_⟩
  intro q hq
  rw [lookupA_eq_none_iff]
  intro hmem
  have h1 := keys_buildFromQuery QueryDAG.new q hmem
  rcases List.mem_append.mp h1 with h | h
  · exact absurd h (List.not_mem_nil _)
  · exact hq h

/-- Witness for C4's amended claim at `SELECT * FROM t`. -/
theorem c4_sentinel_amended_witness :
    "__result__" ∉ declaredQuery starQuery ∧
    lookupA "__result__" (build starQuery).tables = none :=
  ⟨by decide, c4_sentinel_amended.2 starQuery (by decide)⟩

/-- Claim C5: the walker returns the concatenation (not deduplicated, in
first-seen order) of the identifiers and compound identifiers encountered
across the simple-identifier, compound-identifier, binary-operation,
function-call and nested shapes; a compound identifier `a.b.c` is recorded
as the single dotted string, never decomposed; every other shape yields no
dependencies; the walk is total, hence never fails. -/
theorem c5_walker_concatenation :
    (∀ (e : Expr) (deps : List String), walkExpr e deps = deps ++ specWalk e) ∧
    (∀ e : Expr, extractColumnDeps e = specWalk e) ∧
    (∀ (l : Expr) (op : String) (r : Expr),
      specWalk (.binaryOp l op r) = specWalk l ++ specWalk r) ∧
    (∀ ids : List String,
      specWalk (.compoundIdentifier ids) = [String.intercalate "." ids]) ∧
    (∀ v : String, specWalk (.identifier v) = [v]) ∧
    (∀ e : Expr, specWalk (.nested e) = specWalk e) ∧
    (∀ (op : String) (e : Expr), extractColumnDeps (.unaryOp op e) = []) ∧
    (∀ e : Expr, extractColumnDeps (.cast e) = []) ∧
    (∀ cs rs : List Expr, extractColumnDeps (.caseExpr cs rs) = []) ∧
    (∀ v : String, extractColumnDeps (.value v) = []) ∧
    extractColumnDeps .other = [] :=
  ⟨walkExpr_eq_specWalk,
    fun e => (walkExpr_eq_specWalk e []).trans (List.nil_append _),
    fun _ _ _ => rfl, fun _ => rfl, fun _ => rfl, fun _ => rfl,
    fun _ _ => rfl, fun _ => rfl, fun _ _ => rfl, fun _ => rfl, rfl⟩

/-- Claim C6: each wildcard projection item (bare or qualified) appends
exactly one ColumnLineage record with output name `"*"` and an empty
dependency list, never touching the table or dependency maps, and the
projection loop's column output is exactly the per-item records in order;
`SELECT * FROM t` yields exactly one such record. -/
theorem c6_wildcard_single_lineage :
    (∀ (dag : QueryDAG) (context : String) (q : Option String)
        (rest : List SelectItem),
      processProjection dag context (.wildcard q :: rest)
        = processProjection
            { dag with columns := dag.columns ++ [⟨"*", some context, "*", []⟩] }
            context rest) ∧
    (∀ (context : String) (q : Option String),
      projectionColumns context [.wildcard q] = [⟨"*", some context, "*", []⟩]) ∧
    (∀ (dag : QueryDAG) (context : String) (items : List SelectItem),
      (processProjection dag context items).columns
        = dag.columns ++ projectionColumns context items) ∧
    (build starQuery).columns = [⟨"*", some "__result__", "*", []⟩] :=
  ⟨fun _ _ _ _ => rfl, fun _ _ => rfl, processProjection_columns, by decide⟩

/-- Claim C7: a discovered direct table is registered under its alias when
present and its canonical name otherwise; a later registration under the
same key silently replaces the earlier entry (last-write-wins), and key
uniqueness of the table map is preserved. -/
theorem c7_registry_key_last_write_wins (dag : QueryDAG) (name n₂ : String)
    (al : Option String) (h : (tableKeys dag).Nodup) :
    keyOf name al = al.getD name ∧
    lookupA (keyOf name al) (extractTable dag (.table name al)).tables
      = some ⟨name, al, .BaseTable⟩ ∧
    (tableKeys (extractTable dag (.table name al))).Nodup ∧
    lookupA (keyOf name al)
      (extractTable (extractTable dag (.table name al))
        (.table n₂ (some (keyOf name al)))).tables
      = some ⟨n₂, some (keyOf name al), .BaseTable⟩ := by
  have hkey : keyOf name al = al.getD name := by cases al <;> rfl
  refine ⟨hkey, ?_, nodup_keys_insertA _ _ _ h, ?_⟩
  · rw [hkey]
    exact lookupA_insertA_self _ _ _
  · exact lookupA_insertA_self _ _ _

/-- Witness for C7: registering `customers AS c` over a fresh graph, then
re-registering key `c` for table `orders`. -/
theorem c7_registry_key_last_write_wins_witness :
    (tableKeys QueryDAG.new).Nodup ∧
    (keyOf "customers" (some "c") = (some "c").getD "customers" ∧
      lookupA (keyOf "customers" (some "c"))
        (extractTable QueryDAG.new (.table "customers" (some "c"))).tables
        = some ⟨"customers", some "c", .BaseTable⟩ ∧
      (tableKeys (extractTable QueryDAG.new (.table "customers" (some "c")))).Nodup ∧
      lookupA (keyOf "customers" (some "c"))
        (extractTable (extractTable QueryDAG.new (.table "customers" (some "c")))
          (.table "orders" (some (keyOf "customers" (some "c"))))).tables
        = some ⟨"orders", some (keyOf "customers" (some "c")), .BaseTable⟩) :=
  ⟨by decide,
    c7_registry_key_last_write_wins QueryDAG.new "customers" "orders" (some "c") (by decide)⟩

/-- Claim C8: running the builder twice on the same query yields identical
table, column and edge sets and the same topological order. -/
theorem c8_build_deterministic (q : Query) (g₁ g₂ : QueryDAG)
    (h₁ : buildFromQuery QueryDAG.new q = g₁)
    (h₂ : buildFromQuery QueryDAG.new q = g₂) :
    g₁.tables = g₂.tables ∧ g₁.columns = g₂.columns ∧
      g₁.dependencies = g₂.dependencies ∧
      topologicalOrder g₁ = topologicalOrder g₂ := by
  subst h₁
  subst h₂
  exact ⟨rfl, rfl, rfl, rfl⟩

/-- Witness for C8 at `SELECT a.x FROM t1 a JOIN t2 b`. -/
theorem c8_build_deterministic_witness :
    buildFromQuery QueryDAG.new joinQuery = build joinQuery ∧
    ((build joinQuery).tables = (build joinQuery).tables ∧
      (build joinQuery).columns = (build joinQuery).columns ∧
      (build joinQuery).dependencies = (build joinQuery).dependencies ∧
      topologicalOrder (build joinQuery) = topologicalOrder (build joinQuery)) :=
  ⟨rfl, c8_build_deterministic joinQuery (build joinQuery) (build joinQuery) rfl rfl⟩

/-- Claim C9: every builder operation — `build_from_query`,
`extract_from_select` (with its mutual recursion through derived
subqueries), `extract_table`, the CTE loop and `walk_expr` — terminates on
every finite input AST: each is embedded as a total structurally recursive
function, so a result exists for every input. -/
theorem c9_builder_total :
    (∀ (dag : QueryDAG) (q : Query), ∃ g, buildFromQuery dag q = g) ∧
    (∀ (dag : QueryDAG) (context : String) (s : Select),
      ∃ g, extractFromSelect dag context s = g) ∧
    (∀ (dag : QueryDAG) (f : TableFactor), ∃ g, extractTable dag f = g) ∧
    (∀ (dag : QueryDAG) (l : List Cte), ∃ g, buildCtes dag l = g) ∧
    (∀ (e : Expr) (deps : List String), ∃ r, walkExpr e deps = r) :=
  ⟨fun _ _ => ⟨_, rfl⟩, fun _ _ _ => ⟨_, rfl⟩, fun _ _ => ⟨_, rfl⟩,
    fun _ _ => ⟨_, rfl⟩, fun _ _ => ⟨_, rfl⟩⟩

/-- Claim C10: a function call contributes dependencies only through the
unnamed positional expression arguments of a list-form argument clause:
the OVER clause is ignored (the result does not depend on it), non-list
argument clauses contribute nothing, named and wildcard arguments are
skipped, and `RANK() OVER (PARTITION BY tc.region ORDER BY
tc.total_revenue DESC)` yields an empty dependency list. -/
theorem c10_function_args_only :
    (∀ (n : String) (args : FunctionArguments) (o o' : Option WindowSpec)
        (deps : List String),
      walkExpr (.function (.mk n args o)) deps
        = walkExpr (.function (.mk n args o')) deps) ∧
    (∀ (n : String) (o : Option WindowSpec) (deps : List String),
      walkExpr (.function (.mk n .none o)) deps = deps) ∧
    (∀ (n : String) (o : Option WindowSpec) (deps : List String),
      walkExpr (.function (.mk n .subquery o)) deps = deps) ∧
    (∀ (n : String) (o : Option WindowSpec) (deps : List String)
        (fargs : List FunctionArg) (cls : List String),
      walkExpr (.function (.mk n (.list (.mk fargs cls)) o)) deps
        = deps ++ specWalkArgs fargs) ∧
    (∀ (nm : String) (a : FunctionArgExpr) (rest : List FunctionArg),
      specWalkArgs (.named nm a :: rest) = specWalkArgs rest) ∧
    (∀ (qw : String) (rest : List FunctionArg),
      specWalkArgs (.unnamed (.qualifiedWildcard qw) :: rest) = specWalkArgs rest) ∧
    (∀ rest : List FunctionArg,
      specWalkArgs (.unnamed .wildcard :: rest) = specWalkArgs rest) ∧
    (∀ (e : Expr) (rest : List FunctionArg),
      specWalkArgs (.unnamed (.expr e) :: rest) = specWalk e ++ specWalkArgs rest) ∧
    extractColumnDeps rankExpr = [] := by
  refine ⟨fun n args o o' deps => by cases args <;> rfl, fun _ _ _ => rfl,
    fun _ _ _ => rfl, ?_, fun _ _ _ => rfl, fun _ _ => rfl, fun _ => rfl,
    fun _ _ => rfl, rfl⟩
  intro n o deps fargs cls
  exact walkArgList_eq_specWalk (.mk fargs cls) deps

end SnowflakeDag
